import Mathlib

/-!
Verification of the angr `Project` module (project.py): address-space
assembly (library loading and rebasing), import resolution, stub-address
allocation, and the static reference crawler (`make_refs`).

External collaborators (the `Binary` image loader, the permission view,
the lifter/executor) are abstracted at their interface boundary, exactly
as the code consumes them: an image is a record of its address range,
dependency names, export/import tables; the permission view is a partial
map from address to flag bits; lifting/execution is an oracle returning
either a set of classified references or a failure.
-/

namespace Angr

/-- `granularity = 0x1000000`, the alignment unit for rebase placement
(project.py line 21). -/
def granularity : Nat := 0x1000000

/-- The rebased start address computed inside `Project.find_delta`
(project.py lines 64-65): `start_offset = min_addr_bin % granularity;
new_start_bin = granularity * ((self.max_addr + granularity) / granularity)
+ start_offset`.  Python 2 `/` on non-negative integers is floor
division, i.e. `Nat` division. -/
def new_start_bin (max_addr min_addr_bin : Nat) : Nat :=
  granularity * ((max_addr + granularity) / granularity) + min_addr_bin % granularity

/-- `Project.find_delta` (project.py lines 57-68): the signed rebase
delta `new_start_bin - min_addr_bin`. -/
def find_delta (max_addr min_addr_bin : Nat) : Int :=
  (new_start_bin max_addr min_addr_bin : Int) - (min_addr_bin : Int)

/-- The new-base formula as the spec words it (section 4.2 of the spec):
`new_base = granularity * ceil((global_max + granularity) / granularity)
+ offset`, with ceiling division. -/
def spec_new_base (global_max lo : Nat) : Nat :=
  granularity * ((global_max + granularity + granularity - 1) / granularity) + lo % granularity

theorem granularity_pos : 0 < granularity := by decide

/-- Rebasing by `find_delta` moves the image minimum exactly to
`new_start_bin`. -/
theorem min_plus_delta (max_addr lo : Nat) :
    (lo : Int) + find_delta max_addr lo = (new_start_bin max_addr lo : Int) := by
  unfold find_delta; ring

/-- The code's new base lies strictly above the current global maximum. -/
theorem new_start_bin_gt_max (max_addr lo : Nat) : max_addr < new_start_bin max_addr lo := by
  unfold new_start_bin granularity
  omega

/-! ## Library loading (`Project.load_libs`, project.py lines 70-95)

The `Binary` collaborator is abstracted at its interface: a library name
carries the dependency names its binary declares (`get_lib_names`), its
natural address range (`min_addr`/`max_addr`), and whether its file
exists in the project directory (`os.path.exists`).  Names are naturals.
-/

/-- Loader environment: the interface surface `load_libs` consumes. -/
structure LibEnv where
  deps : Nat → List Nat
  lo : Nat → Nat
  hi : Nat → Nat
  fs : Finset Nat

/-- State of the `load_libs` worklist loop: the `remaining_libs`
worklist (Python's set-pop is modelled as a list popped from the head,
set-union as append; a duplicate queued name is harmless because the
`done_libs` guard skips it), the `done_libs` set, the running
`min_addr`/`max_addr` envelope, plus two ghost observations: the order
in which libraries were actually loaded and the rebased `(lo, hi)`
range of every placed image. -/
structure LoadState where
  remaining : List Nat
  done : Finset Nat
  max_addr : Nat
  min_addr : Nat
  loadOrder : List Nat
  placed : List (Nat × Nat)

/-- One iteration of the `while len(remaining_libs) > 0` loop
(project.py lines 75-95): pop a name; if it is not done and its file
exists, load it, mark it done, rebase it by `find_delta`, widen the
envelope and queue its own dependencies; otherwise drop it. -/
def loadStep (env : LibEnv) (s : LoadState) : LoadState :=
  match s.remaining with
  | [] => s
  | lib :: rest =>
    if lib ∉ s.done ∧ lib ∈ env.fs then
      let rlo := new_start_bin s.max_addr (env.lo lib)
      let rhi := rlo + (env.hi lib - env.lo lib)
      { remaining := rest ++ env.deps lib
        done := insert lib s.done
        max_addr := max s.max_addr rhi
        min_addr := min s.min_addr rlo
        loadOrder := s.loadOrder ++ [lib]
        placed := s.placed ++ [(rlo, rhi)] }
    else
      { s with remaining := rest }

/-- Fuelled driver of the loading loop; it stops as soon as the
worklist is empty, mirroring the `while` condition. -/
def loadLoop (env : LibEnv) : Nat → LoadState → LoadState
  | 0, s => s
  | fuel + 1, s =>
    match s.remaining with
    | [] => s
    | _ :: _ => loadLoop env fuel (loadStep env s)

/-- Initial loader state (project.py lines 71-72 and 32-33): the
worklist is seeded with the main image's declared dependencies, the
envelope with the main image's own range; the main image itself is the
first placed image. -/
def initLoadState (mainDeps : List Nat) (mainLo mainHi : Nat) : LoadState :=
  { remaining := mainDeps
    done := ∅
    max_addr := mainHi
    min_addr := mainLo
    loadOrder := []
    placed := [(mainLo, mainHi)] }

/-- Termination measure for the loading loop: worklist length plus the
total queueing cost of the existing-but-unloaded names. -/
def loadMeasure (env : LibEnv) (s : LoadState) : Nat :=
  s.remaining.length + ∑ n ∈ env.fs \ s.done, (1 + (env.deps n).length)

/-- Transitive reachability through declared dependencies: the names
`load_libs` is contracted to consider, rooted at the main image's
dependency list; an edge exists only through a library whose file
exists (its binary is the only way its `get_lib_names` is read). -/
inductive LibReach (env : LibEnv) (roots : List Nat) : Nat → Prop
  | root : ∀ {n}, n ∈ roots → LibReach env roots n
  | dep : ∀ {m n}, LibReach env roots m → m ∈ env.fs → n ∈ env.deps m →
      LibReach env roots n

theorem loadStep_measure (env : LibEnv) (s : LoadState) (h : s.remaining ≠ []) :
    loadMeasure env (loadStep env s) < loadMeasure env s := by
  match hs : s.remaining with
  | [] => exact absurd hs h
  | lib :: rest =>
    simp only [loadStep, hs]
    by_cases hc : lib ∉ s.done ∧ lib ∈ env.fs
    · rw [if_pos hc]
      have hmem : lib ∈ env.fs \ s.done := Finset.mem_sdiff.mpr ⟨hc.2, hc.1⟩
      have hsd : env.fs \ insert lib s.done = (env.fs \ s.done).erase lib := by
        ext x
        simp only [Finset.mem_sdiff, Finset.mem_insert, Finset.mem_erase]
        tauto
      have hsum : (1 + (env.deps lib).length) +
          ∑ x ∈ (env.fs \ s.done).erase lib, (1 + (env.deps x).length)
          = ∑ x ∈ env.fs \ s.done, (1 + (env.deps x).length) :=
        Finset.add_sum_erase (env.fs \ s.done) (fun n => 1 + (env.deps n).length) hmem
      simp only [loadMeasure, hsd, hs, List.length_append, List.length_cons]
      omega
    · rw [if_neg hc]
      simp only [loadMeasure, hs, List.length_cons]
      omega

theorem loadLoop_drains (env : LibEnv) :
    ∀ fuel s, loadMeasure env s ≤ fuel → (loadLoop env fuel s).remaining = [] := by
  intro fuel
  induction fuel with
  | zero =>
    intro s h
    have : s.remaining.length = 0 := by
      have := Nat.le_zero.mp h
      unfold loadMeasure at this
      omega
    simpa [loadLoop] using List.length_eq_zero.mp this
  | succ n ih =>
    intro s h
    unfold loadLoop
    match hs : s.remaining with
    | [] => exact hs
    | lib :: rest =>
      apply ih
      have := loadStep_measure env s (by rw [hs]; simp)
      omega

/-- The inductive invariant of the loading loop. -/
def LoadInv (env : LibEnv) (roots : List Nat) (s : LoadState) : Prop :=
  s.done = s.loadOrder.toFinset ∧
  s.loadOrder.Nodup ∧
  (∀ n ∈ s.loadOrder, n ∈ env.fs ∧ LibReach env roots n) ∧
  (∀ n ∈ s.remaining, LibReach env roots n) ∧
  (∀ m ∈ s.done, ∀ n ∈ env.deps m, n ∈ env.fs → (n ∈ s.done ∨ n ∈ s.remaining)) ∧
  (∀ n ∈ roots, n ∈ env.fs → (n ∈ s.done ∨ n ∈ s.remaining))

theorem loadStep_inv (env : LibEnv) (roots : List Nat) (s : LoadState)
    (h : LoadInv env roots s) : LoadInv env roots (loadStep env s) := by
  obtain ⟨hdone, hnodup, hord, hrem, hclosed, hroots⟩ := h
  match hs : s.remaining with
  | [] =>
    have hstep : loadStep env s = s := by simp only [loadStep, hs]
    rw [hstep]
    exact ⟨hdone, hnodup, hord, hrem, hclosed, hroots⟩
  | lib :: rest =>
    have hlibreach : LibReach env roots lib := hrem lib (by rw [hs]; simp)
    by_cases hc : lib ∉ s.done ∧ lib ∈ env.fs
    · have hstep : loadStep env s =
          { remaining := rest ++ env.deps lib
            done := insert lib s.done
            max_addr := max s.max_addr (new_start_bin s.max_addr (env.lo lib) +
              (env.hi lib - env.lo lib))
            min_addr := min s.min_addr (new_start_bin s.max_addr (env.lo lib))
            loadOrder := s.loadOrder ++ [lib]
            placed := s.placed ++ [(new_start_bin s.max_addr (env.lo lib),
              new_start_bin s.max_addr (env.lo lib) + (env.hi lib - env.lo lib))] } := by
        simp only [loadStep, hs]
        rw [if_pos hc]
      rw [hstep]
      have hlibnew : lib ∉ s.loadOrder := by
        rw [hdone] at hc
        exact fun hmem => hc.1 (List.mem_toFinset.mpr hmem)
      refine ⟨?_, ?_, ?_, ?_, ?_, ?_⟩
      · rw [hdone]
        ext x
        simp only [Finset.mem_insert, List.mem_toFinset, List.mem_append,
          List.mem_singleton]
        tauto
      · refine List.Nodup.append hnodup (List.nodup_singleton lib) ?_
        intro a ha hb
        rw [List.mem_singleton] at hb
        subst hb
        exact hlibnew ha
      · intro n hn
        rcases List.mem_append.mp hn with h1 | h1
        · exact hord n h1
        · have : n = lib := by simpa using h1
          subst this
          exact ⟨hc.2, hlibreach⟩
      · intro n hn
        rcases List.mem_append.mp hn with h1 | h1
        · exact hrem n (by rw [hs]; simp [h1])
        · exact LibReach.dep hlibreach hc.2 h1
      · intro m hm n hn hfs
        rcases Finset.mem_insert.mp hm with h1 | h1
        · subst h1
          exact Or.inr (List.mem_append.mpr (Or.inr hn))
        · rcases hclosed m h1 n hn hfs with h2 | h2
          · exact Or.inl (Finset.mem_insert.mpr (Or.inr h2))
          · rw [hs] at h2
            rcases List.mem_cons.mp h2 with h3 | h3
            · subst h3
              exact Or.inl (Finset.mem_insert.mpr (Or.inl rfl))
            · exact Or.inr (List.mem_append.mpr (Or.inl h3))
      · intro n hn hfs
        rcases hroots n hn hfs with h1 | h1
        · exact Or.inl (Finset.mem_insert.mpr (Or.inr h1))
        · rw [hs] at h1
          rcases List.mem_cons.mp h1 with h2 | h2
          · subst h2
            exact Or.inl (Finset.mem_insert.mpr (Or.inl rfl))
          · exact Or.inr (List.mem_append.mpr (Or.inl h2))
    · have hstep : loadStep env s = { s with remaining := rest } := by
        simp only [loadStep, hs]
        rw [if_neg hc]
      rw [hstep]
      refine ⟨hdone, hnodup, hord, ?_, ?_, ?_⟩
      · intro n hn
        exact hrem n (by rw [hs]; simp [hn])
      · intro m hm n hn hfs
        rcases hclosed m hm n hn hfs with h1 | h1
        · exact Or.inl h1
        · rw [hs] at h1
          rcases List.mem_cons.mp h1 with h2 | h2
          · subst h2
            rcases not_and_or.mp hc with h3 | h3
            · exact Or.inl (not_not.mp h3)
            · exact absurd hfs h3
          · exact Or.inr h2
      · intro n hn hfs
        rcases hroots n hn hfs with h1 | h1
        · exact Or.inl h1
        · rw [hs] at h1
          rcases List.mem_cons.mp h1 with h2 | h2
          · subst h2
            rcases not_and_or.mp hc with h3 | h3
            · exact Or.inl (not_not.mp h3)
            · exact absurd hfs h3
          · exact Or.inr h2

theorem loadLoop_preserves (env : LibEnv) (P : LoadState → Prop)
    (hstep : ∀ s, P s → P (loadStep env s)) :
    ∀ fuel s, P s → P (loadLoop env fuel s) := by
  intro fuel
  induction fuel with
  | zero => intro s h; exact h
  | succ n ih =>
    intro s h
    unfold loadLoop
    match hs : s.remaining with
    | [] => exact h
    | lib :: rest => exact ih _ (hstep s h)

/-- Placement invariant: the placed ranges are pairwise disjoint in
placement order, and every placed maximum is below the envelope. -/
def PlacedInv (s : LoadState) : Prop :=
  List.Pairwise (fun p q : Nat × Nat => p.2 < q.1) s.placed ∧
  ∀ p ∈ s.placed, p.2 ≤ s.max_addr

theorem loadStep_placed (env : LibEnv) (s : LoadState) (h : PlacedInv s) :
    PlacedInv (loadStep env s) := by
  obtain ⟨hpw, hmax⟩ := h
  match hs : s.remaining with
  | [] =>
    have hstep : loadStep env s = s := by simp only [loadStep, hs]
    rw [hstep]
    exact ⟨hpw, hmax⟩
  | lib :: rest =>
    by_cases hc : lib ∉ s.done ∧ lib ∈ env.fs
    · have hstep : loadStep env s =
          { remaining := rest ++ env.deps lib
            done := insert lib s.done
            max_addr := max s.max_addr (new_start_bin s.max_addr (env.lo lib) +
              (env.hi lib - env.lo lib))
            min_addr := min s.min_addr (new_start_bin s.max_addr (env.lo lib))
            loadOrder := s.loadOrder ++ [lib]
            placed := s.placed ++ [(new_start_bin s.max_addr (env.lo lib),
              new_start_bin s.max_addr (env.lo lib) + (env.hi lib - env.lo lib))] } := by
        simp only [loadStep, hs]
        rw [if_pos hc]
      rw [hstep]
      constructor
      · rw [List.pairwise_append]
        refine ⟨hpw, List.pairwise_singleton _ _, ?_⟩
        intro p hp q hq
        rw [List.mem_singleton] at hq
        subst hq
        exact lt_of_le_of_lt (hmax p hp) (new_start_bin_gt_max s.max_addr (env.lo lib))
      · intro p hp
        rcases List.mem_append.mp hp with h1 | h1
        · exact le_trans (hmax p h1) (le_max_left _ _)
        · rw [List.mem_singleton] at h1
          subst h1
          exact le_max_right _ _
    · have hstep : loadStep env s = { s with remaining := rest } := by
        simp only [loadStep, hs]
        rw [if_neg hc]
      rw [hstep]
      exact ⟨hpw, hmax⟩

/-- C2 (amended): every pair of image ranges placed by the builder is
disjoint, the later one starting strictly above the earlier one's
maximum; the base follows the floor-division formula `new_start_bin`. -/
theorem load_libs_placed_disjoint (env : LibEnv) (mainDeps : List Nat)
    (mainLo mainHi : Nat) (fuel : Nat) :
    List.Pairwise (fun p q : Nat × Nat => p.2 < q.1)
      (loadLoop env fuel (initLoadState mainDeps mainLo mainHi)).placed := by
  have hinit : PlacedInv (initLoadState mainDeps mainLo mainHi) := by
    constructor
    · exact List.pairwise_singleton _ _
    · intro p hp
      simp only [initLoadState, List.mem_singleton] at hp
      subst hp
      exact le_refl _
  exact (loadLoop_preserves env PlacedInv (loadStep_placed env) fuel _ hinit).1

/-- A concrete two-library environment exhibiting the granularity-gap
counterexample: both library files exist, lib 1 has natural range
[0, 0x11], lib 2 has [0, 0x10], neither declares dependencies. -/
def envC2 : LibEnv :=
  { deps := fun _ => []
    lo := fun _ => 0
    hi := fun n => if n = 1 then 0x11 else 0x10
    fs := {1, 2} }

/-- C2 (counterexample to the claim as stated): with a main image of
range [0, 0x100] and the two libraries above, lib 1 is placed at
[0x1000000, 0x1000011] and lib 2 at [0x2000000, 0x2000010]: lib 2's
base is strictly below lib 1's max plus the granularity constant, and
the code's base differs from the spec's ceiling-division formula. -/
theorem load_libs_gap_counterexample :
    (loadLoop envC2 3 (initLoadState [1, 2] 0 0x100)).placed
      = [(0, 0x100), (0x1000000, 0x1000011), (0x2000000, 0x2000010)] ∧
    0x2000000 < 0x1000011 + granularity ∧
    new_start_bin 0x1000011 0 ≠ spec_new_base 0x1000011 0 := by
  refine ⟨by decide, by decide, by decide⟩

/-- C7: rebasing by `find_delta` preserves the image's original
alignment offset modulo the granularity constant. -/
theorem rebase_preserves_offset (max_addr lo : Nat) :
    ((lo : Int) + find_delta max_addr lo) % (granularity : Int)
      = (lo : Int) % (granularity : Int) := by
  simp only [find_delta, new_start_bin, granularity]
  omega

/-- C8: the dependency-loading loop terminates on every dependency
graph (the measure `loadMeasure` bounds the number of iterations),
drains its worklist, loads no library twice, and loads exactly the
transitively-referenced names whose files exist. -/
theorem load_libs_terminates_loads_once (env : LibEnv) (mainDeps : List Nat)
    (mainLo mainHi : Nat) :
    (loadLoop env (loadMeasure env (initLoadState mainDeps mainLo mainHi))
        (initLoadState mainDeps mainLo mainHi)).remaining = [] ∧
    (loadLoop env (loadMeasure env (initLoadState mainDeps mainLo mainHi))
        (initLoadState mainDeps mainLo mainHi)).loadOrder.Nodup ∧
    ∀ n, n ∈ (loadLoop env (loadMeasure env (initLoadState mainDeps mainLo mainHi))
        (initLoadState mainDeps mainLo mainHi)).loadOrder ↔
      (LibReach env mainDeps n ∧ n ∈ env.fs) := by
  have hinit : LoadInv env mainDeps (initLoadState mainDeps mainLo mainHi) := by
    refine ⟨?_, ?_, ?_, ?_, ?_, ?_⟩
    · simp [initLoadState]
    · exact List.nodup_nil
    · intro n hn
      cases hn
    · intro n hn
      exact LibReach.root hn
    · intro m hm
      cases hm
    · intro n hn _
      exact Or.inr hn
  have hdrain := loadLoop_drains env
      (loadMeasure env (initLoadState mainDeps mainLo mainHi))
      (initLoadState mainDeps mainLo mainHi) (le_refl _)
  have hinv := loadLoop_preserves env (LoadInv env mainDeps)
      (fun s h => loadStep_inv env mainDeps s h)
      (loadMeasure env (initLoadState mainDeps mainLo mainHi))
      (initLoadState mainDeps mainLo mainHi) hinit
  obtain ⟨hdone, hnodup, hord, _, hclosed, hroots⟩ := hinv
  refine ⟨hdrain, hnodup, ?_⟩
  intro n
  constructor
  · intro hn
    exact ⟨(hord n hn).2, (hord n hn).1⟩
  · rintro ⟨hreach, hfs⟩
    have hmem : ∀ k, LibReach env mainDeps k → k ∈ env.fs → k ∈ (loadLoop env
        (loadMeasure env (initLoadState mainDeps mainLo mainHi))
        (initLoadState mainDeps mainLo mainHi)).done := by
      intro k hreach'
      induction hreach' with
      | root hn =>
        intro hfs'
        rcases hroots _ hn hfs' with h1 | h1
        · exact h1
        · rw [hdrain] at h1
          cases h1
      | dep hm hmfs hdep ih =>
        intro hfs'
        rcases hclosed _ (ih hmfs) _ hdep hfs' with h1 | h1
        · exact h1
        · rw [hdrain] at h1
          cases h1
    have := hmem n hreach hfs
    rw [hdone] at this
    exact List.mem_toFinset.mp this

/-! ## Import resolution from loaded libraries
(`Project.resolve_imports_from_libs`, project.py lines 97-119)

One loaded image is modelled at the interface the resolver consumes:
declared dependency names (`get_lib_names`), export table
(`get_exports`, name-type pairs), import table (`get_imports`),
and symbol-address lookup (`get_symbol_addr`; `none` models the caught
exception of a failing lookup).  `import_map` is the image's import
resolution state, updated by `resolve_import`.  Symbol names are
naturals. -/

structure RBinary where
  lib_names : List Nat
  exports : List (Nat × Nat)
  imports : List (Nat × Nat)
  get_symbol_addr : Nat → Option Nat
  import_map : Nat → Option Nat

/-- The inner export loop (project.py lines 108-112):
`resolved[export] = lib.get_symbol_addr(export)`, a failing lookup
being skipped with a warning.  Later assignments overwrite earlier
ones, as in a dict. -/
def addExports (lib : RBinary) (resolved : Nat → Option Nat) :
    List (Nat × Nat) → (Nat → Option Nat)
  | [] => resolved
  | (ex, _) :: rest =>
    match lib.get_symbol_addr ex with
    | some a => addExports lib (fun x => if x = ex then some a else resolved x) rest
    | none => addExports lib resolved rest

/-- The `resolved` table built for one image (project.py lines
99-112): fold over the image's declared library names; a name that is
not among the loaded binaries is skipped with a warning. -/
def buildResolved (binaries : Nat → Option RBinary) :
    List Nat → (Nat → Option Nat) → (Nat → Option Nat)
  | [], resolved => resolved
  | lib_name :: rest, resolved =>
    match binaries lib_name with
    | none => buildResolved binaries rest resolved
    | some lib => buildResolved binaries rest (addExports lib resolved lib.exports)

/-- The import-patching loop (project.py lines 114-119): a resolved
entry is patched via `resolve_import`; an unresolved one is left
untouched and recorded in the warning list. -/
def patchImports (resolved : Nat → Option Nat) :
    List (Nat × Nat) → (Nat → Option Nat) → List Nat → (Nat → Option Nat) × List Nat
  | [], import_map, warns => (import_map, warns)
  | (imp, _) :: rest, import_map, warns =>
    match resolved imp with
    | some a =>
      patchImports resolved rest (fun x => if x = imp then some a else import_map x) warns
    | none => patchImports resolved rest import_map (warns ++ [imp])

/-- `Project.resolve_imports_from_libs` restricted to one image `b`
(the outer loop of project.py line 98 applies this body to each image
independently): the patched import map and the warning list. -/
def resolve_imports_from_libs (binaries : Nat → Option RBinary) (b : RBinary) :
    (Nat → Option Nat) × List Nat :=
  patchImports (buildResolved binaries b.lib_names fun _ => none)
    b.imports b.import_map []

theorem patchImports_keeps (resolved : Nat → Option Nat) (imp : Nat) (a : Nat)
    (hres : resolved imp = some a) :
    ∀ imps import_map warns, import_map imp = some a →
      (patchImports resolved imps import_map warns).1 imp = some a := by
  intro imps
  induction imps with
  | nil => intro import_map warns h; exact h
  | cons hd rest ih =>
    intro import_map warns h
    obtain ⟨i, t⟩ := hd
    simp only [patchImports]
    match hri : resolved i with
    | some b' =>
      apply ih
      by_cases hii : imp = i
      · subst hii
        rw [hres] at hri
        simp [hri.symm]
      · simp [hii, h]
    | none => exact ih _ _ h

theorem patchImports_untouched (resolved : Nat → Option Nat) (imp : Nat)
    (hres : resolved imp = none) :
    ∀ imps import_map warns,
      (patchImports resolved imps import_map warns).1 imp = import_map imp := by
  intro imps
  induction imps with
  | nil => intro import_map warns; rfl
  | cons hd rest ih =>
    intro import_map warns
    obtain ⟨i, t⟩ := hd
    simp only [patchImports]
    match hri : resolved i with
    | some b' =>
      rw [ih]
      have : imp ≠ i := fun h => by rw [h, hri] at hres; cases hres
      simp [this]
    | none => exact ih _ _

theorem patchImports_sets (resolved : Nat → Option Nat) (imp a : Nat)
    (hres : resolved imp = some a) :
    ∀ imps import_map warns t, (imp, t) ∈ imps →
      (patchImports resolved imps import_map warns).1 imp = some a := by
  intro imps
  induction imps with
  | nil => intro _ _ _ h; cases h
  | cons hd rest ih =>
    intro import_map warns t h
    obtain ⟨i, ti⟩ := hd
    simp only [patchImports]
    rcases List.mem_cons.mp h with h1 | h1
    · obtain ⟨h2, h3⟩ := Prod.mk.inj h1
      subst h2
      simp only [hres]
      exact patchImports_keeps resolved imp a hres rest _ warns (by simp)
    · match hri : resolved i with
      | some b' => exact ih _ _ t h1
      | none => exact ih _ _ t h1

theorem patchImports_warns_mono (resolved : Nat → Option Nat) :
    ∀ imps import_map warns w, w ∈ warns →
      w ∈ (patchImports resolved imps import_map warns).2 := by
  intro imps
  induction imps with
  | nil => intro import_map warns w h; exact h
  | cons hd rest ih =>
    intro import_map warns w h
    obtain ⟨i, t⟩ := hd
    simp only [patchImports]
    match resolved i with
    | some b' => exact ih _ _ w h
    | none => exact ih _ _ w (List.mem_append.mpr (Or.inl h))

theorem patchImports_warned (resolved : Nat → Option Nat) (imp : Nat)
    (hres : resolved imp = none) :
    ∀ imps import_map warns t, (imp, t) ∈ imps →
      imp ∈ (patchImports resolved imps import_map warns).2 := by
  intro imps
  induction imps with
  | nil => intro _ _ _ h; cases h
  | cons hd rest ih =>
    intro import_map warns t h
    obtain ⟨i, ti⟩ := hd
    simp only [patchImports]
    rcases List.mem_cons.mp h with h1 | h1
    · obtain ⟨h2, h3⟩ := Prod.mk.inj h1
      subst h2
      rw [hres]
      exact patchImports_warns_mono resolved rest import_map _ imp
        (List.mem_append.mpr (Or.inr (List.mem_singleton.mpr rfl)))
    · match resolved i with
      | some b' => exact ih _ _ t h1
      | none => exact ih _ _ t h1

theorem patchImports_warns_sound (resolved : Nat → Option Nat) :
    ∀ imps import_map warns w,
      w ∈ (patchImports resolved imps import_map warns).2 →
      w ∈ warns ∨ resolved w = none := by
  intro imps
  induction imps with
  | nil => intro _ warns w h; exact Or.inl h
  | cons hd rest ih =>
    intro import_map warns w h
    obtain ⟨i, t⟩ := hd
    simp only [patchImports] at h
    match hri : resolved i with
    | some b' =>
      rw [hri] at h
      exact ih _ _ w h
    | none =>
      rw [hri] at h
      rcases ih _ _ w h with h1 | h1
      · rcases List.mem_append.mp h1 with h2 | h2
        · exact Or.inl h2
        · rw [List.mem_singleton] at h2
          subst h2
          exact Or.inr hri
      · exact Or.inr h1

theorem addExports_sound (lib : RBinary) (imp a : Nat) :
    ∀ exps resolved, addExports lib resolved exps imp = some a →
      resolved imp = some a ∨
      ((∃ t, (imp, t) ∈ exps) ∧ lib.get_symbol_addr imp = some a) := by
  intro exps
  induction exps with
  | nil => intro resolved h; exact Or.inl h
  | cons hd rest ih =>
    intro resolved h
    obtain ⟨ex, t⟩ := hd
    simp only [addExports] at h
    match hex : lib.get_symbol_addr ex with
    | some b' =>
      rw [hex] at h
      rcases ih _ h with h1 | h1
      · by_cases hie : imp = ex
        · subst hie
          rw [if_pos rfl] at h1
          exact Or.inr ⟨⟨t, List.mem_cons_self _ _⟩, by rw [hex]; exact h1⟩
        · rw [if_neg hie] at h1
          exact Or.inl h1
      · exact Or.inr ⟨⟨h1.1.choose, List.mem_cons_of_mem _ h1.1.choose_spec⟩, h1.2⟩
    | none =>
      rw [hex] at h
      rcases ih _ h with h1 | h1
      · exact Or.inl h1
      · exact Or.inr ⟨⟨h1.1.choose, List.mem_cons_of_mem _ h1.1.choose_spec⟩, h1.2⟩

theorem buildResolved_sound (binaries : Nat → Option RBinary) (imp a : Nat) :
    ∀ names resolved, buildResolved binaries names resolved imp = some a →
      resolved imp = some a ∨
      ∃ ln, ln ∈ names ∧ ∃ lib, binaries ln = some lib ∧
        (∃ t, (imp, t) ∈ lib.exports) ∧ lib.get_symbol_addr imp = some a := by
  intro names
  induction names with
  | nil => intro resolved h; exact Or.inl h
  | cons ln rest ih =>
    intro resolved h
    simp only [buildResolved] at h
    match hln : binaries ln with
    | none =>
      rw [hln] at h
      rcases ih _ h with h1 | h1
      · exact Or.inl h1
      · obtain ⟨ln', h2, h3⟩ := h1
        exact Or.inr ⟨ln', List.mem_cons_of_mem _ h2, h3⟩
    | some lib =>
      rw [hln] at h
      rcases ih _ h with h1 | h1
      · rcases addExports_sound lib imp a _ _ h1 with h2 | h2
        · exact Or.inl h2
        · exact Or.inr ⟨ln, List.mem_cons_self _ _, lib, hln, h2⟩
      · obtain ⟨ln', h2, h3⟩ := h1
        exact Or.inr ⟨ln', List.mem_cons_of_mem _ h2, h3⟩

theorem addExports_skips_failing (lib : RBinary) (x t : Nat)
    (hx : lib.get_symbol_addr x = none) :
    ∀ e1 e2 resolved,
      addExports lib resolved (e1 ++ (x, t) :: e2) = addExports lib resolved (e1 ++ e2) := by
  intro e1
  induction e1 with
  | nil =>
    intro e2 resolved
    simp only [List.nil_append, addExports, hx]
  | cons hd rest ih =>
    intro e2 resolved
    obtain ⟨ex, te⟩ := hd
    simp only [List.cons_append, addExports]
    match lib.get_symbol_addr ex with
    | some b' => exact ih e2 _
    | none => exact ih e2 _

/-- C6: for every image, an import resolved by the combined export
table of its declared loaded libraries is patched to that export's
exact looked-up address and is not warned about; an unresolved import
is left unpatched and lands in the warning list; every resolved
address comes from a declared loaded library that exports the symbol
with a successful lookup; and an export whose address lookup fails is
skipped without affecting the rest of the table. -/
theorem resolve_imports_spec (binaries : Nat → Option RBinary) (b : RBinary) :
    (∀ imp t a, (imp, t) ∈ b.imports →
      buildResolved binaries b.lib_names (fun _ => none) imp = some a →
      (resolve_imports_from_libs binaries b).1 imp = some a ∧
        imp ∉ (resolve_imports_from_libs binaries b).2) ∧
    (∀ imp t, (imp, t) ∈ b.imports →
      buildResolved binaries b.lib_names (fun _ => none) imp = none →
      (resolve_imports_from_libs binaries b).1 imp = b.import_map imp ∧
        imp ∈ (resolve_imports_from_libs binaries b).2) ∧
    (∀ imp a, buildResolved binaries b.lib_names (fun _ => none) imp = some a →
      ∃ ln, ln ∈ b.lib_names ∧ ∃ lib, binaries ln = some lib ∧
        (∃ t, (imp, t) ∈ lib.exports) ∧ lib.get_symbol_addr imp = some a) ∧
    (∀ (lib : RBinary) (x t : Nat), lib.get_symbol_addr x = none →
      ∀ e1 e2 resolved,
        addExports lib resolved (e1 ++ (x, t) :: e2) =
          addExports lib resolved (e1 ++ e2)) := by
  refine ⟨?_, ?_, ?_, ?_⟩
  · intro imp t a himp hres
    constructor
    · exact patchImports_sets _ imp a hres _ _ _ t himp
    · intro hw
      rcases patchImports_warns_sound _ _ _ _ _ hw with h1 | h1
      · cases h1
      · rw [h1] at hres
        cases hres
  · intro imp t himp hres
    exact ⟨patchImports_untouched _ imp hres _ _ _,
      patchImports_warned _ imp hres _ _ _ t himp⟩
  · intro imp a h
    rcases buildResolved_sound binaries imp a _ _ h with h1 | h1
    · cases h1
    · exact h1
  · intro lib x t hx e1 e2 resolved
    exact addExports_skips_failing lib x t hx e1 e2 resolved

/-- A concrete dependency library: exports symbol 7 at address 0x40,
and a symbol 9 whose address lookup fails. -/
def lib5 : RBinary :=
  { lib_names := []
    exports := [(7, 0), (9, 0)]
    imports := []
    get_symbol_addr := fun n => if n = 7 then some 0x40 else none
    import_map := fun _ => none }

/-- A loaded-binaries map containing only `lib5` under name 5. -/
def binaries0 : Nat → Option RBinary := fun n => if n = 5 then some lib5 else none

/-- A concrete main image declaring library 5 and importing symbols 7
(exported) and 8 (not exported anywhere). -/
def bin0 : RBinary :=
  { lib_names := [5]
    exports := []
    imports := [(7, 0), (8, 0)]
    get_symbol_addr := fun _ => none
    import_map := fun _ => none }

theorem resolve_imports_spec_witness :
    (resolve_imports_from_libs binaries0 bin0).1 7 = some 0x40 ∧
      7 ∉ (resolve_imports_from_libs binaries0 bin0).2 :=
  (resolve_imports_spec binaries0 bin0).1 7 0 0x40 (by decide) (by rfl)

/-! ## Stub address allocation (`Project.set_sim_procedure`,
project.py lines 220-246, and
`Project.resolve_imports_using_sim_procedures`, lines 121-134)

The pseudo-address is the first 8 bytes of the MD5 digest of
`lib + "_" + func_name`, unpacked as an unsigned little-endian 64-bit
integer (`struct.unpack("<Q", m.digest()[:8])`).  MD5 (RFC 1321) is
implemented below over byte lists; Python 2 strings are byte strings,
modelled as `List Nat` of values below 256. -/

/-- The 64 per-round left-rotation amounts of MD5. -/
def md5S : List Nat :=
  [7, 12, 17, 22, 7, 12, 17, 22, 7, 12, 17, 22, 7, 12, 17, 22,
   5, 9, 14, 20, 5, 9, 14, 20, 5, 9, 14, 20, 5, 9, 14, 20,
   4, 11, 16, 23, 4, 11, 16, 23, 4, 11, 16, 23, 4, 11, 16, 23,
   6, 10, 15, 21, 6, 10, 15, 21, 6, 10, 15, 21, 6, 10, 15, 21]

/-- The 64 MD5 sine-table constants. -/
def md5K : List Nat :=
  [0xd76aa478, 0xe8c7b756, 0x242070db, 0xc1bdceee,
   0xf57c0faf, 0x4787c62a, 0xa8304613, 0xfd469501,
   0x698098d8, 0x8b44f7af, 0xffff5bb1, 0x895cd7be,
   0x6b901122, 0xfd987193, 0xa679438e, 0x49b40821,
   0xf61e2562, 0xc040b340, 0x265e5a51, 0xe9b6c7aa,
   0xd62f105d, 0x02441453, 0xd8a1e681, 0xe7d3fbc8,
   0x21e1cde6, 0xc33707d6, 0xf4d50d87, 0x455a14ed,
   0xa9e3e905, 0xfcefa3f8, 0x676f02d9, 0x8d2a4c8a,
   0xfffa3942, 0x8771f681, 0x6d9d6122, 0xfde5380c,
   0xa4beea44, 0x4bdecfa9, 0xf6bb4b60, 0xbebfbc70,
   0x289b7ec6, 0xeaa127fa, 0xd4ef3085, 0x04881d05,
   0xd9d4d039, 0xe6db99e5, 0x1fa27cf8, 0xc4ac5665,
   0xf4292244, 0x432aff97, 0xab9423a7, 0xfc93a039,
   0x655b59c3, 0x8f0ccc92, 0xffeff47d, 0x85845dd1,
   0x6fa87e4f, 0xfe2ce6e0, 0xa3014314, 0x4e0811a1,
   0xf7537e82, 0xbd3af235, 0x2ad7d2bb, 0xeb86d391]

/-- 32-bit left rotation (inputs below `2^32`). -/
def rotl32 (x n : Nat) : Nat := ((x <<< n) % 4294967296) + (x >>> (32 - n))

/-- Little-endian byte decomposition: `k` bytes of value `v`. -/
def leBytes : Nat → Nat → List Nat
  | 0, _ => []
  | k + 1, v => v % 256 :: leBytes k (v / 256)

/-- Little-endian 32-bit word `g` of a 64-byte chunk. -/
def leWord (chunk : List Nat) (g : Nat) : Nat :=
  chunk.getD (4 * g) 0 + 256 * chunk.getD (4 * g + 1) 0 +
    65536 * chunk.getD (4 * g + 2) 0 + 16777216 * chunk.getD (4 * g + 3) 0

/-- MD5 padding: a 0x80 byte, zeros to 56 mod 64, then the bit length
as 8 little-endian bytes. -/
def md5Pad (msg : List Nat) : List Nat :=
  msg ++ [0x80] ++ List.replicate ((120 - (msg.length + 1) % 64) % 64) 0 ++
    leBytes 8 (msg.length * 8)

/-- One of the 64 MD5 rounds on state `(a, b, c, d)`. -/
def md5Round (m : Nat → Nat) (st : Nat × Nat × Nat × Nat) (i : Nat) :
    Nat × Nat × Nat × Nat :=
  let a := st.1
  let b := st.2.1
  let c := st.2.2.1
  let d := st.2.2.2
  let f :=
    if i < 16 then (b &&& c) ||| ((0xffffffff ^^^ b) &&& d)
    else if i < 32 then (d &&& b) ||| ((0xffffffff ^^^ d) &&& c)
    else if i < 48 then b ^^^ c ^^^ d
    else c ^^^ (b ||| (0xffffffff ^^^ d))
  let g :=
    if i < 16 then i
    else if i < 32 then (5 * i + 1) % 16
    else if i < 48 then (3 * i + 5) % 16
    else (7 * i) % 16
  let tmp := (f + a + md5K.getD i 0 + m g) % 4294967296
  (d, (b + rotl32 tmp (md5S.getD i 0)) % 4294967296, b, c)

/-- Process a padded message 64-byte chunk at a time. -/
def md5Process (st : Nat × Nat × Nat × Nat) (msg : List Nat) : Nat × Nat × Nat × Nat :=
  match msg with
  | [] => st
  | x :: rest =>
    let m := leWord (List.take 64 (x :: rest))
    let r := (List.range 64).foldl (md5Round m) st
    md5Process
      ((st.1 + r.1) % 4294967296, (st.2.1 + r.2.1) % 4294967296,
        (st.2.2.1 + r.2.2.1) % 4294967296, (st.2.2.2 + r.2.2.2) % 4294967296)
      (List.drop 64 (x :: rest))
termination_by msg.length
decreasing_by simp [List.length_drop]; omega

/-- The 16-byte MD5 digest of a byte string (checked against the RFC
1321 test vectors for the empty string and "abc"). -/
def md5 (msg : List Nat) : List Nat :=
  let st := md5Process (0x67452301, 0xefcdab89, 0x98badcfe, 0x10325476) (md5Pad msg)
  leBytes 4 st.1 ++ leBytes 4 st.2.1 ++ leBytes 4 st.2.2.1 ++ leBytes 4 st.2.2.2

/-- `struct.unpack("<Q", ...)`: little-endian byte recomposition. -/
def fromLE : List Nat → Nat
  | [] => 0
  | b :: rest => b + 256 * fromLE rest

/-- `m.digest()[:8]` for `m = md5.md5(); m.update(lib + "_" + func_name)`
(project.py lines 226-229); `0x5f` is the byte of `"_"`. -/
def hashed_bytes (lib func_name : List Nat) : List Nat :=
  (md5 (lib ++ [0x5f] ++ func_name)).take 8

/-- The pseudo-address of `Project.set_sim_procedure`
(project.py line 230). -/
def pseudo_addr (lib func_name : List Nat) : Nat :=
  fromLE (hashed_bytes lib func_name)

/-- One loaded image at the interface `set_sim_procedure` consumes:
declared library names, import table, import patch sites
(`get_import_addrs`), and the raw byte map `ida.mem`. -/
structure SBinary where
  lib_names : List (List Nat)
  imports : List (List Nat × Nat)
  get_import_addrs : List Nat → List Nat
  mem : Nat → Nat

/-- The project state touched by stub allocation: the main file name,
the loaded images keyed by name, and the `sim_procedures` stub table
(pseudo-address to stub id). -/
structure SProject where
  filename : List Nat
  binaries : List Nat → Option SBinary
  sim_procedures : Nat → Option Nat

/-- `binary.ida.mem[addr + n] = p` for each byte (project.py
lines 235-236). -/
def writeBytes (mem : Nat → Nat) (addr : Nat) : List Nat → (Nat → Nat)
  | [] => mem
  | b :: rest => writeBytes (fun x => if x = addr then b else mem x) (addr + 1) rest

/-- The patch loop over all import sites (project.py lines 234-236). -/
def patchPLT (mem : Nat → Nat) (addrs : List Nat) (bytes : List Nat) : Nat → Nat :=
  addrs.foldl (fun m a => writeBytes m a bytes) mem

/-- `Project.set_sim_procedure` (project.py lines 220-236): register
the stub under the hashed pseudo-address and overwrite every import
site of `func_name` in `binary` with the 8 hash bytes. -/
def set_sim_procedure (proj : SProject) (binary_name lib func_name : List Nat)
    (sim_proc : Nat) : SProject :=
  { proj with
    sim_procedures := fun k =>
      if k = pseudo_addr lib func_name then some sim_proc else proj.sim_procedures k
    binaries := fun k =>
      if k = binary_name then
        (proj.binaries binary_name).map fun b =>
          { b with mem :=
              patchPLT b.mem (b.get_import_addrs func_name) (hashed_bytes lib func_name) }
      else proj.binaries k }

/-- `Project.resolve_imports_using_sim_procedures` (project.py lines
121-134): for each library the main binary declares that the stub
catalog knows, and each import of the main binary the catalog library
provides, register a stub.  Only the main binary is consulted and
patched (the code's own comment: "Now it only supports the main
binary!"). -/
def resolve_imports_using_sim_procedures
    (catalog : List Nat → Option (List Nat → Option Nat)) (proj : SProject) : SProject :=
  match proj.binaries proj.filename with
  | none => proj
  | some binary =>
    binary.lib_names.foldl (fun p lib_name =>
      match catalog lib_name with
      | none => p
      | some functions =>
        binary.imports.foldl (fun p' ip =>
          match functions ip.1 with
          | none => p'
          | some sim_proc => set_sim_procedure p' proj.filename lib_name ip.1 sim_proc)
          p)
      proj

theorem leBytes_lt (k : Nat) : ∀ v, ∀ b ∈ leBytes k v, b < 256 := by
  induction k with
  | zero => intro v b hb; cases hb
  | succ n ih =>
    intro v b hb
    rcases List.mem_cons.mp hb with h | h
    · subst h
      exact Nat.mod_lt _ (by norm_num)
    · exact ih _ b h

theorem md5_bytes_lt (msg : List Nat) : ∀ b ∈ md5 msg, b < 256 := by
  intro b hb
  simp only [md5] at hb
  rcases List.mem_append.mp hb with h | h
  · rcases List.mem_append.mp h with h1 | h1
    · rcases List.mem_append.mp h1 with h2 | h2
      · exact leBytes_lt 4 _ b h2
      · exact leBytes_lt 4 _ b h2
    · exact leBytes_lt 4 _ b h1
  · exact leBytes_lt 4 _ b h

theorem fromLE_lt : ∀ l : List Nat, (∀ b ∈ l, b < 256) → fromLE l < 256 ^ l.length := by
  intro l
  induction l with
  | nil =>
    intro _
    simp [fromLE]
  | cons b rest ih =>
    intro h
    have hb : b < 256 := h b (List.mem_cons_self _ _)
    have hr := ih fun x hx => h x (List.mem_cons_of_mem _ hx)
    simp only [fromLE, List.length_cons]
    calc b + 256 * fromLE rest < 256 * (fromLE rest + 1) := by omega
      _ ≤ 256 * 256 ^ rest.length := Nat.mul_le_mul_left _ hr
      _ = 256 ^ (rest.length + 1) := by ring

theorem pseudo_addr_lt (lib func_name : List Nat) : pseudo_addr lib func_name < 2 ^ 64 := by
  have h1 : ∀ b ∈ hashed_bytes lib func_name, b < 256 := fun b hb =>
    md5_bytes_lt _ b (List.mem_of_mem_take hb)
  have h3 : (hashed_bytes lib func_name).length ≤ 8 := List.length_take_le _ _
  calc pseudo_addr lib func_name < 256 ^ (hashed_bytes lib func_name).length :=
        fromLE_lt _ h1
    _ ≤ 256 ^ 8 := Nat.pow_le_pow_right (by norm_num) h3
    _ = 2 ^ 64 := by norm_num

theorem writeBytes_apply : ∀ (bs : List Nat) (m : Nat → Nat) (a x : Nat),
    writeBytes m a bs x =
      if a ≤ x ∧ x < a + bs.length then bs.getD (x - a) 0 else m x := by
  intro bs
  induction bs with
  | nil =>
    intro m a x
    rw [writeBytes, if_neg]
    simp only [List.length_nil]
    omega
  | cons b rest ih =>
    intro m a x
    rw [writeBytes, ih]
    by_cases h1 : a + 1 ≤ x ∧ x < a + 1 + rest.length
    · rw [if_pos h1, if_pos (by simp only [List.length_cons]; omega)]
      have hxa : x - a = (x - a - 1) + 1 := by omega
      rw [hxa, List.getD_cons_succ]
      congr 1
    · rw [if_neg h1]
      by_cases h2 : x = a
      · subst h2
        rw [if_pos rfl, if_pos (by simp only [List.length_cons]; omega)]
        simp
      · rw [if_neg h2, if_neg (by simp only [List.length_cons]; omega)]

theorem patchPLT_uncovered (bs : List Nat) :
    ∀ (addrs : List Nat) (m : Nat → Nat) (x : Nat),
      (¬ ∃ a ∈ addrs, a ≤ x ∧ x < a + bs.length) → patchPLT m addrs bs x = m x := by
  intro addrs
  induction addrs with
  | nil => intro m x _; rfl
  | cons a rest ih =>
    intro m x hx
    have h1 : patchPLT m (a :: rest) bs = patchPLT (writeBytes m a bs) rest bs := rfl
    rw [h1, ih _ x fun ⟨a', ha', hr⟩ => hx ⟨a', List.mem_cons_of_mem _ ha', hr⟩]
    rw [writeBytes_apply, if_neg]
    intro hcon
    exact hx ⟨a, List.mem_cons_self _ _, hcon⟩

theorem patchPLT_congr (bs : List Nat) :
    ∀ (addrs : List Nat) (m1 m2 : Nat → Nat),
      (∀ x, (¬ ∃ a ∈ addrs, a ≤ x ∧ x < a + bs.length) → m1 x = m2 x) →
      patchPLT m1 addrs bs = patchPLT m2 addrs bs := by
  intro addrs
  induction addrs with
  | nil =>
    intro m1 m2 h
    funext x
    exact h x (by simp)
  | cons a rest ih =>
    intro m1 m2 h
    have h1 : ∀ m, patchPLT m (a :: rest) bs = patchPLT (writeBytes m a bs) rest bs :=
      fun m => rfl
    rw [h1, h1]
    apply ih
    intro x hx
    rw [writeBytes_apply, writeBytes_apply]
    by_cases hb : a ≤ x ∧ x < a + bs.length
    · rw [if_pos hb, if_pos hb]
    · rw [if_neg hb, if_neg hb]
      exact h x fun ⟨a', ha', hr⟩ => by
        rcases List.mem_cons.mp ha' with h2 | h2
        · exact hb (h2 ▸ hr)
        · exact hx ⟨a', h2, hr⟩

theorem patchPLT_idem (bs addrs : List Nat) (m : Nat → Nat) :
    patchPLT (patchPLT m addrs bs) addrs bs = patchPLT m addrs bs := by
  apply patchPLT_congr
  intro x hx
  exact patchPLT_uncovered bs addrs m x hx

theorem patch_binary_idem (lib func_name : List Nat) (x : Option SBinary) :
    Option.map (fun b : SBinary =>
        { b with mem :=
            patchPLT b.mem (b.get_import_addrs func_name) (hashed_bytes lib func_name) })
      (Option.map (fun b : SBinary =>
        { b with mem :=
            patchPLT b.mem (b.get_import_addrs func_name) (hashed_bytes lib func_name) }) x)
    = Option.map (fun b : SBinary =>
        { b with mem :=
            patchPLT b.mem (b.get_import_addrs func_name) (hashed_bytes lib func_name) }) x := by
  cases x with
  | none => rfl
  | some b =>
    dsimp only [Option.map]
    rw [patchPLT_idem]

/-- C5: the pseudo-address is a deterministic function of the
`(library, function)` pair — it always fits an unsigned 64-bit integer
(the `"<Q"` unpack), and registering the same pair again is a no-op on
the whole project state: same stub-table key, same patch bytes. -/
theorem pseudo_addr_deterministic :
    (∀ lib func_name : List Nat, pseudo_addr lib func_name < 2 ^ 64) ∧
    (∀ (proj : SProject) (bname lib func_name : List Nat) (p : Nat),
      set_sim_procedure (set_sim_procedure proj bname lib func_name p)
          bname lib func_name p
        = set_sim_procedure proj bname lib func_name p) := by
  constructor
  · exact pseudo_addr_lt
  · intro proj bname lib func_name p
    obtain ⟨fname, bins, sps⟩ := proj
    simp only [set_sim_procedure]
    congr 1
    · funext k
      by_cases hk : k = bname
      · simp only [if_pos hk, if_pos (Eq.refl bname)]
        exact patch_binary_idem lib func_name (bins bname)
      · simp only [if_neg hk]
    · funext k
      by_cases hk : k = pseudo_addr lib func_name
      · simp only [if_pos hk]
      · simp only [if_neg hk]

theorem foldl_preserves {α β : Type} (P : β → Prop) (f : β → α → β) :
    ∀ l : List α, (∀ x ∈ l, ∀ acc, P acc → P (f acc x)) →
      ∀ b, P b → P (l.foldl f b) := by
  intro l
  induction l with
  | nil => intro _ b h; exact h
  | cons x rest ih =>
    intro hstep b hb
    exact ih (fun y hy acc hacc => hstep y (List.mem_cons_of_mem _ hy) acc hacc) _
      (hstep x (List.mem_cons_self _ _) b hb)

/-- C10: stub-based import resolution touches only the main binary:
every other image (its import table and its bytes) is untouched, and
every stub-table entry it creates is keyed by the pseudo-address of a
library that the main binary declares and a function that the main
binary imports. -/
theorem sim_procedures_main_only
    (catalog : List Nat → Option (List Nat → Option Nat)) (proj : SProject) :
    (∀ name, name ≠ proj.filename →
      (resolve_imports_using_sim_procedures catalog proj).binaries name
        = proj.binaries name) ∧
    (∀ key, (resolve_imports_using_sim_procedures catalog proj).sim_procedures key
        ≠ proj.sim_procedures key →
      ∃ binary lib func_name, proj.binaries proj.filename = some binary ∧
        lib ∈ binary.lib_names ∧ func_name ∈ binary.imports.map Prod.fst ∧
        key = pseudo_addr lib func_name) := by
  match hmain : proj.binaries proj.filename with
  | none =>
    have hres : resolve_imports_using_sim_procedures catalog proj = proj := by
      unfold resolve_imports_using_sim_procedures
      rw [hmain]
    rw [hres]
    exact ⟨fun _ _ => rfl, fun key hk => absurd rfl hk⟩
  | some binary =>
    have hres : resolve_imports_using_sim_procedures catalog proj =
        binary.lib_names.foldl (fun p lib_name =>
          match catalog lib_name with
          | none => p
          | some functions =>
            binary.imports.foldl (fun p' ip =>
              match functions ip.1 with
              | none => p'
              | some sim_proc =>
                set_sim_procedure p' proj.filename lib_name ip.1 sim_proc) p)
          proj := by
      unfold resolve_imports_using_sim_procedures
      rw [hmain]
    rw [hres]
    have hP := foldl_preserves
      (fun p : SProject =>
        (∀ name, name ≠ proj.filename → p.binaries name = proj.binaries name) ∧
        (∀ key, p.sim_procedures key ≠ proj.sim_procedures key →
          ∃ lib func_name, lib ∈ binary.lib_names ∧
            func_name ∈ binary.imports.map Prod.fst ∧
            key = pseudo_addr lib func_name))
      (fun p lib_name =>
        match catalog lib_name with
        | none => p
        | some functions =>
          binary.imports.foldl (fun p' ip =>
            match functions ip.1 with
            | none => p'
            | some sim_proc =>
              set_sim_procedure p' proj.filename lib_name ip.1 sim_proc) p)
      binary.lib_names
      (by
        intro lib_name hlib acc hacc
        dsimp only
        match catalog lib_name with
        | none => exact hacc
        | some functions =>
          refine foldl_preserves
            (fun p : SProject =>
              (∀ name, name ≠ proj.filename →
                p.binaries name = proj.binaries name) ∧
              (∀ key, p.sim_procedures key ≠ proj.sim_procedures key →
                ∃ lib func_name, lib ∈ binary.lib_names ∧
                  func_name ∈ binary.imports.map Prod.fst ∧
                  key = pseudo_addr lib func_name))
            (fun p' ip =>
              match functions ip.1 with
              | none => p'
              | some sim_proc =>
                set_sim_procedure p' proj.filename lib_name ip.1 sim_proc)
            binary.imports ?_ acc hacc
          intro ip hip p' hp'
          dsimp only
          match functions ip.1 with
          | none => exact hp'
          | some sim_proc =>
            constructor
            · intro name hname
              have h1 : (set_sim_procedure p' proj.filename lib_name ip.1
                  sim_proc).binaries name = p'.binaries name := by
                simp only [set_sim_procedure]
                rw [if_neg hname]
              rw [h1]
              exact hp'.1 name hname
            · intro key hkey
              by_cases hk : key = pseudo_addr lib_name ip.1
              · exact ⟨lib_name, ip.1, hlib,
                  List.mem_map.mpr ⟨ip, hip, rfl⟩, hk⟩
              · apply hp'.2
                have h1 : (set_sim_procedure p' proj.filename lib_name ip.1
                    sim_proc).sim_procedures key = p'.sim_procedures key := by
                  simp only [set_sim_procedure]
                  rw [if_neg hk]
                rw [h1] at hkey
                exact hkey)
      proj
      ⟨fun _ _ => rfl, fun key hk => absurd rfl hk⟩
    refine ⟨hP.1, ?_⟩
    intro key hkey
    obtain ⟨lib, func_name, h1, h2, h3⟩ := hP.2 key hkey
    exact ⟨binary, lib, func_name, rfl, h1, h2, h3⟩

/-- A concrete project for the frame witness: main image "m" (byte
109) declaring library "l" (byte 108) and importing "f" (byte 102); a
second image "o" (byte 111) that must stay untouched. -/
def sbinMain : SBinary :=
  { lib_names := [[108]]
    imports := [([102], 0)]
    get_import_addrs := fun _ => [0x10]
    mem := fun _ => 0 }

def sbinOther : SBinary :=
  { lib_names := []
    imports := []
    get_import_addrs := fun _ => []
    mem := fun _ => 1 }

def sproj0 : SProject :=
  { filename := [109]
    binaries := fun k =>
      if k = [109] then some sbinMain else if k = [111] then some sbinOther else none
    sim_procedures := fun _ => none }

def catalog0 : List Nat → Option (List Nat → Option Nat) :=
  fun l => if l = [108] then some (fun f => if f = [102] then some 1 else none) else none

theorem sim_procedures_main_only_witness :
    (resolve_imports_using_sim_procedures catalog0 sproj0).binaries [111]
      = sproj0.binaries [111] :=
  (sim_procedures_main_only catalog0 sproj0).1 [111] (by decide)

/-! ## The reference crawler (`Project.make_refs`, project.py lines
248-369)

The lifting/execution collaborator is an oracle
`sim : addr → state → Option (BlockRes σ)`: `none` models the caught
`SimIRSBError`/`AngrException` of `sim_block`, `some` carries the
classified references (`s.refs()`) and the outgoing state (`s.state`).
The permission view is `perm : addr → Option flags` (`val_to in
self.perm` / `self.perm[val_to]`).  `remaining_addrs` is a Python list
used as a stack (append then `pop()` at the same end), modelled as
cons/head. -/

/-- One classified access: `addr` is `none` when `r.addr.is_symbolic()`
and otherwise holds `r.addr.any()`; `size` is in bits (`r.size`). -/
structure Ref where
  addr : Option Nat
  inst_addr : Nat
  size : Nat

/-- The outcome of a successful `sim_block` call. -/
structure BlockRes (σ : Type) where
  reads : List Ref
  writes : List Ref
  coderefs : List Ref
  memrefs : List Ref
  post : σ

/-- The eight reference tables (project.py lines 269-276), each a
defaultdict from address to an append-ordered list of
(counterpart address, optional byte size) entries. -/
structure RefTables where
  data_reads_to : Nat → List (Nat × Option Nat)
  data_reads_from : Nat → List (Nat × Option Nat)
  data_writes_to : Nat → List (Nat × Option Nat)
  data_writes_from : Nat → List (Nat × Option Nat)
  code_refs_to : Nat → List (Nat × Option Nat)
  code_refs_from : Nat → List (Nat × Option Nat)
  memory_refs_to : Nat → List (Nat × Option Nat)
  memory_refs_from : Nat → List (Nat × Option Nat)

def emptyTables : RefTables :=
  { data_reads_to := fun _ => []
    data_reads_from := fun _ => []
    data_writes_to := fun _ => []
    data_writes_from := fun _ => []
    code_refs_to := fun _ => []
    code_refs_from := fun _ => []
    memory_refs_to := fun _ => []
    memory_refs_from := fun _ => [] }

/-- `table[k].append(v)`. -/
def tappend (t : Nat → List (Nat × Option Nat)) (k : Nat) (v : Nat × Option Nat) :
    Nat → List (Nat × Option Nat) :=
  fun x => if x = k then t k ++ [v] else t x

/-- `for i in range(start, start + count): table[i].append((v, None))`,
in ascending order. -/
def tappendRange (t : Nat → List (Nat × Option Nat)) (start count v : Nat) :
    Nat → List (Nat × Option Nat) :=
  match count with
  | 0 => t
  | c + 1 => tappendRange (tappend t start (v, none)) (start + 1) c v

/-- `val_to in self.perm and self.perm[val_to] & 1` (project.py
line 351). -/
def permExec (perm : Nat → Option Nat) (a : Nat) : Bool :=
  match perm a with
  | some flags => Nat.land flags 1 != 0
  | none => false

/-- Crawl state: the `remaining_addrs` worklist, the `sim_blocks`
discovered set, the tables, and a ghost trace of every address popped
and handed to `sim_block`. -/
structure CrawlState (σ : Type) where
  remaining : List (Nat × σ)
  sim_blocks : Finset Nat
  tabs : RefTables
  analyzed : List Nat

/-- Data-read tracking (project.py lines 293-304). -/
def procRead {σ : Type} (st : CrawlState σ) (r : Ref) : CrawlState σ :=
  match r.addr with
  | none => st
  | some val_to =>
    { st with tabs := { st.tabs with
        data_reads_from :=
          tappend st.tabs.data_reads_from r.inst_addr (val_to, some (r.size / 8))
        data_reads_to :=
          tappendRange st.tabs.data_reads_to val_to (r.size / 8) r.inst_addr } }

/-- Data-write tracking (project.py lines 306-317).  Note: as in the
source, both appends land in `data_writes_to` — the pair
`(val_from, size)` at key `val_to` and the byte-range entries — and
`data_writes_from` is never written. -/
def procWrite {σ : Type} (st : CrawlState σ) (r : Ref) : CrawlState σ :=
  match r.addr with
  | none => st
  | some val_to =>
    { st with tabs := { st.tabs with
        data_writes_to :=
          tappendRange
            (tappend st.tabs.data_writes_to val_to (r.inst_addr, some (r.size / 8)))
            val_to (r.size / 8) r.inst_addr } }

/-- Code-reference tracking (project.py lines 319-335): both
directions recorded; an unseen target re-enters the worklist with the
block's outgoing state. -/
def procCode {σ : Type} (post : σ) (st : CrawlState σ) (r : Ref) : CrawlState σ :=
  match r.addr with
  | none => st
  | some val_to =>
    let st' := { st with tabs := { st.tabs with
        code_refs_to := tappend st.tabs.code_refs_to val_to (r.inst_addr, none)
        code_refs_from := tappend st.tabs.code_refs_from r.inst_addr (val_to, none) } }
    if val_to ∉ st.sim_blocks then
      { st' with
        remaining := (val_to, post) :: st'.remaining
        sim_blocks := insert val_to st'.sim_blocks }
    else st'

/-- Memory-reference tracking (project.py lines 337-359): both
directions recorded unconditionally; the target re-enters the worklist
only if unseen, present in the permission view and executable. -/
def procMemRef {σ : Type} (perm : Nat → Option Nat) (post : σ) (st : CrawlState σ)
    (r : Ref) : CrawlState σ :=
  match r.addr with
  | none => st
  | some val_to =>
    let st' := { st with tabs := { st.tabs with
        memory_refs_to := tappend st.tabs.memory_refs_to val_to (r.inst_addr, none)
        memory_refs_from := tappend st.tabs.memory_refs_from r.inst_addr (val_to, none) } }
    if val_to ∉ st.sim_blocks ∧ permExec perm val_to = true then
      { st' with
        remaining := (val_to, post) :: st'.remaining
        sim_blocks := insert val_to st'.sim_blocks }
    else st'

/-- Process one successfully analyzed block (project.py lines
291-359): mark it discovered, then track reads, writes, code refs and
memory refs, in source order. -/
def processBlock {σ : Type} (perm : Nat → Option Nat) (a : Nat) (res : BlockRes σ)
    (st : CrawlState σ) : CrawlState σ :=
  let st1 := { st with sim_blocks := insert a st.sim_blocks }
  let st2 := res.reads.foldl procRead st1
  let st3 := res.writes.foldl procWrite st2
  let st4 := res.coderefs.foldl (procCode res.post) st3
  res.memrefs.foldl (procMemRef perm res.post) st4

/-- One iteration of the crawl loop (project.py lines 281-359): pop an
address, try `sim_block` — a failure (`none`) logs and abandons the
address — otherwise process the block. -/
def crawlStep {σ : Type} (sim : Nat → σ → Option (BlockRes σ))
    (perm : Nat → Option Nat) (st : CrawlState σ) : CrawlState σ :=
  match st.remaining with
  | [] => st
  | (a, initial_state) :: rest =>
    let st' := { st with remaining := rest, analyzed := st.analyzed ++ [a] }
    match sim a initial_state with
    | none => st'
    | some res => processBlock perm a res st'

/-- The fuelled `while len(remaining_addrs) > 0` driver. -/
def crawlLoop {σ : Type} (sim : Nat → σ → Option (BlockRes σ))
    (perm : Nat → Option Nat) : Nat → CrawlState σ → CrawlState σ
  | 0, st => st
  | fuel + 1, st =>
    match st.remaining with
    | [] => st
    | _ :: _ => crawlLoop sim perm fuel (crawlStep sim perm st)

/-- `Project.make_refs`: crawl from the program entry point with a
fresh state; the result carries the eight tables and
`static_block_addrs` (= `sim_blocks`). -/
def make_refs {σ : Type} (sim : Nat → σ → Option (BlockRes σ))
    (perm : Nat → Option Nat) (entry : Nat) (st0 : σ) (fuel : Nat) : CrawlState σ :=
  crawlLoop sim perm fuel
    { remaining := [(entry, st0)]
      sim_blocks := ∅
      tabs := emptyTables
      analyzed := [] }

theorem tappend_same (t : Nat → List (Nat × Option Nat)) (k : Nat)
    (v : Nat × Option Nat) : tappend t k v k = t k ++ [v] := by
  simp [tappend]

/-- C1: for a concrete memory reference to `val_to`, both
`memory_refs_to`/`memory_refs_from` entries are recorded
unconditionally, and the target is queued (pushed with the outgoing
state onto the worklist and added to the discovered set) exactly when
it is unseen, present in the permission view, and its permission flags
have the executable bit set; otherwise worklist and discovered set are
untouched. -/
theorem memref_queue_policy {σ : Type} (perm : Nat → Option Nat) (post : σ)
    (st : CrawlState σ) (r : Ref) (val_to : Nat) (h : r.addr = some val_to) :
    ((procMemRef perm post st r).tabs.memory_refs_to val_to
        = st.tabs.memory_refs_to val_to ++ [(r.inst_addr, none)]) ∧
    ((procMemRef perm post st r).tabs.memory_refs_from r.inst_addr
        = st.tabs.memory_refs_from r.inst_addr ++ [(val_to, none)]) ∧
    ((val_to ∉ st.sim_blocks ∧ permExec perm val_to = true) →
      (procMemRef perm post st r).remaining = (val_to, post) :: st.remaining ∧
      (procMemRef perm post st r).sim_blocks = insert val_to st.sim_blocks) ∧
    (¬(val_to ∉ st.sim_blocks ∧ permExec perm val_to = true) →
      (procMemRef perm post st r).remaining = st.remaining ∧
      (procMemRef perm post st r).sim_blocks = st.sim_blocks) := by
  simp only [procMemRef, h]
  by_cases hc : val_to ∉ st.sim_blocks ∧ permExec perm val_to = true
  · rw [if_pos hc]
    exact ⟨tappend_same _ _ _, tappend_same _ _ _,
      fun _ => ⟨rfl, rfl⟩, fun hn => absurd hc hn⟩
  · rw [if_neg hc]
    exact ⟨tappend_same _ _ _, tappend_same _ _ _,
      fun hp => absurd hp hc, fun _ => ⟨rfl, rfl⟩⟩

/-- The permission view of the spec's worked example: 0x2000
executable, 0x3000 present but non-executable, 0x4000 absent. -/
def permW : Nat → Option Nat := fun a =>
  if a = 0x2000 then some 1 else if a = 0x3000 then some 6 else none

theorem memref_queue_policy_witness :
    (procMemRef permW (7 : Nat) ⟨[], ∅, emptyTables, []⟩
        ⟨some 0x2000, 0x1000, 64⟩).remaining = [(0x2000, 7)] ∧
    (procMemRef permW (7 : Nat) ⟨[], ∅, emptyTables, []⟩
        ⟨some 0x2000, 0x1000, 64⟩).tabs.memory_refs_to 0x2000 = [(0x1000, none)] := by
  have h := memref_queue_policy permW (7 : Nat) ⟨[], ∅, emptyTables, []⟩
    ⟨some 0x2000, 0x1000, 64⟩ 0x2000 rfl
  exact ⟨(h.2.2.1 (by decide)).1, by simpa [emptyTables] using h.1⟩

/-- A processing step that leaves the analysis trace alone and either
leaves worklist and discovered set alone or pushes one fresh address,
inserting it into the discovered set at push time. -/
def QueueStep {σ : Type} (f : CrawlState σ → Ref → CrawlState σ) : Prop :=
  ∀ (st : CrawlState σ) (r : Ref),
    (f st r).analyzed = st.analyzed ∧
    (((f st r).remaining = st.remaining ∧ (f st r).sim_blocks = st.sim_blocks) ∨
      (∃ t p, t ∉ st.sim_blocks ∧ (f st r).remaining = (t, p) :: st.remaining ∧
        (f st r).sim_blocks = insert t st.sim_blocks))

theorem procRead_queueStep {σ : Type} : QueueStep (@procRead σ) := by
  intro st r
  obtain ⟨addr, inst, size⟩ := r
  cases addr with
  | none => exact ⟨rfl, Or.inl ⟨rfl, rfl⟩⟩
  | some val_to => exact ⟨rfl, Or.inl ⟨rfl, rfl⟩⟩

theorem procWrite_queueStep {σ : Type} : QueueStep (@procWrite σ) := by
  intro st r
  obtain ⟨addr, inst, size⟩ := r
  cases addr with
  | none => exact ⟨rfl, Or.inl ⟨rfl, rfl⟩⟩
  | some val_to => exact ⟨rfl, Or.inl ⟨rfl, rfl⟩⟩

theorem procCode_queueStep {σ : Type} (post : σ) : QueueStep (procCode post) := by
  intro st r
  obtain ⟨addr, inst, size⟩ := r
  cases addr with
  | none => exact ⟨rfl, Or.inl ⟨rfl, rfl⟩⟩
  | some val_to =>
    by_cases hc : val_to ∉ st.sim_blocks
    · have hstep : procCode post st ⟨some val_to, inst, size⟩ =
          { st with
            tabs := { st.tabs with
              code_refs_to := tappend st.tabs.code_refs_to val_to (inst, none)
              code_refs_from := tappend st.tabs.code_refs_from inst (val_to, none) }
            remaining := (val_to, post) :: st.remaining
            sim_blocks := insert val_to st.sim_blocks } := by
        unfold procCode
        dsimp only
        rw [if_pos hc]
      rw [hstep]
      exact ⟨rfl, Or.inr ⟨val_to, post, hc, rfl, rfl⟩⟩
    · have hstep : procCode post st ⟨some val_to, inst, size⟩ =
          { st with
            tabs := { st.tabs with
              code_refs_to := tappend st.tabs.code_refs_to val_to (inst, none)
              code_refs_from := tappend st.tabs.code_refs_from inst (val_to, none) } } := by
        unfold procCode
        dsimp only
        rw [if_neg hc]
      rw [hstep]
      exact ⟨rfl, Or.inl ⟨rfl, rfl⟩⟩

theorem procMemRef_queueStep {σ : Type} (perm : Nat → Option Nat) (post : σ) :
    QueueStep (procMemRef perm post) := by
  intro st r
  obtain ⟨addr, inst, size⟩ := r
  cases addr with
  | none => exact ⟨rfl, Or.inl ⟨rfl, rfl⟩⟩
  | some val_to =>
    by_cases hc : val_to ∉ st.sim_blocks ∧ permExec perm val_to = true
    · have hstep : procMemRef perm post st ⟨some val_to, inst, size⟩ =
          { st with
            tabs := { st.tabs with
              memory_refs_to := tappend st.tabs.memory_refs_to val_to (inst, none)
              memory_refs_from := tappend st.tabs.memory_refs_from inst (val_to, none) }
            remaining := (val_to, post) :: st.remaining
            sim_blocks := insert val_to st.sim_blocks } := by
        unfold procMemRef
        dsimp only
        rw [if_pos hc]
      rw [hstep]
      exact ⟨rfl, Or.inr ⟨val_to, post, hc.1, rfl, rfl⟩⟩
    · have hstep : procMemRef perm post st ⟨some val_to, inst, size⟩ =
          { st with
            tabs := { st.tabs with
              memory_refs_to := tappend st.tabs.memory_refs_to val_to (inst, none)
              memory_refs_from := tappend st.tabs.memory_refs_from inst (val_to, none) } } := by
        unfold procMemRef
        dsimp only
        rw [if_neg hc]
      rw [hstep]
      exact ⟨rfl, Or.inl ⟨rfl, rfl⟩⟩

/-- The per-state part of the no-revisit invariant: the analysis trace
has no duplicates, the worklist addresses are pairwise distinct, and
no queued address was already analyzed. -/
def BaseInv {σ : Type} (st : CrawlState σ) : Prop :=
  st.analyzed.Nodup ∧ (st.remaining.map Prod.fst).Nodup ∧
  (∀ t ∈ st.remaining.map Prod.fst, t ∉ st.analyzed)

/-- After the first successful block, every queued and every analyzed
address is in the discovered set. -/
def CoveredInv {σ : Type} (st : CrawlState σ) : Prop :=
  (∀ t ∈ st.remaining.map Prod.fst, t ∈ st.sim_blocks) ∧
  (∀ t ∈ st.analyzed, t ∈ st.sim_blocks)

theorem queueStep_preserves {σ : Type} (f : CrawlState σ → Ref → CrawlState σ)
    (hf : QueueStep f) (st : CrawlState σ) (r : Ref)
    (h : BaseInv st ∧ CoveredInv st) : BaseInv (f st r) ∧ CoveredInv (f st r) := by
  obtain ⟨⟨han, hrn, hdisj⟩, hrcov, hacov⟩ := h
  obtain ⟨ha, hcase⟩ := hf st r
  rcases hcase with ⟨hr, hs⟩ | ⟨t, p, htn, hr, hs⟩
  · exact ⟨⟨by rw [ha]; exact han, by rw [hr]; exact hrn,
      by rw [hr, ha]; exact hdisj⟩,
      by rw [hr, hs]; exact hrcov, by rw [ha, hs]; exact hacov⟩
  · refine ⟨⟨by rw [ha]; exact han, ?_, ?_⟩, ?_, ?_⟩
    · rw [hr, List.map_cons]
      exact List.Nodup.cons (fun hmem => htn (hrcov t hmem)) hrn
    · intro u hu
      rw [hr, List.map_cons] at hu
      rw [ha]
      rcases List.mem_cons.mp hu with h1 | h1
      · subst h1
        exact fun hmem => htn (hacov u hmem)
      · exact hdisj u h1
    · intro u hu
      rw [hr, List.map_cons] at hu
      rw [hs]
      rcases List.mem_cons.mp hu with h1 | h1
      · subst h1
        exact Finset.mem_insert_self u _
      · exact Finset.mem_insert_of_mem (hrcov u h1)
    · intro u hu
      rw [ha] at hu
      rw [hs]
      exact Finset.mem_insert_of_mem (hacov u hu)

theorem processBlock_inv {σ : Type} (perm : Nat → Option Nat) (a : Nat)
    (res : BlockRes σ) (st : CrawlState σ)
    (hbase : BaseInv st)
    (hrcov : ∀ t ∈ st.remaining.map Prod.fst, t ∈ insert a st.sim_blocks)
    (hacov : ∀ t ∈ st.analyzed, t ∈ insert a st.sim_blocks) :
    BaseInv (processBlock perm a res st) ∧ CoveredInv (processBlock perm a res st) := by
  unfold processBlock
  have h1 : BaseInv ({ st with sim_blocks := insert a st.sim_blocks } : CrawlState σ) ∧
      CoveredInv { st with sim_blocks := insert a st.sim_blocks } :=
    ⟨hbase, hrcov, hacov⟩
  have h2 := foldl_preserves (fun s : CrawlState σ => BaseInv s ∧ CoveredInv s)
    procRead res.reads
    (fun r _ acc hacc => queueStep_preserves procRead procRead_queueStep acc r hacc)
    _ h1
  have h3 := foldl_preserves (fun s : CrawlState σ => BaseInv s ∧ CoveredInv s)
    procWrite res.writes
    (fun r _ acc hacc => queueStep_preserves procWrite procWrite_queueStep acc r hacc)
    _ h2
  have h4 := foldl_preserves (fun s : CrawlState σ => BaseInv s ∧ CoveredInv s)
    (procCode res.post) res.coderefs
    (fun r _ acc hacc =>
      queueStep_preserves (procCode res.post) (procCode_queueStep res.post) acc r hacc)
    _ h3
  exact foldl_preserves (fun s : CrawlState σ => BaseInv s ∧ CoveredInv s)
    (procMemRef perm res.post) res.memrefs
    (fun r _ acc hacc =>
      queueStep_preserves (procMemRef perm res.post)
        (procMemRef_queueStep perm res.post) acc r hacc)
    _ h4

/-- The full no-revisit invariant: before the first successful block
(discovered set still empty) the crawl is either at its single-entry
start or already drained; afterwards everything queued or analyzed is
discovered. -/
def CrawlInv {σ : Type} (st : CrawlState σ) : Prop :=
  BaseInv st ∧
  (CoveredInv st ∨
    (st.sim_blocks = ∅ ∧ st.analyzed = [] ∧ st.remaining.length ≤ 1) ∨
    (st.sim_blocks = ∅ ∧ st.remaining = []))

theorem crawlStep_inv {σ : Type} (sim : Nat → σ → Option (BlockRes σ))
    (perm : Nat → Option Nat) (st : CrawlState σ) (h : CrawlInv st) :
    CrawlInv (crawlStep sim perm st) := by
  obtain ⟨⟨han, hrn, hdisj⟩, hshape⟩ := h
  match hrem : st.remaining with
  | [] =>
    have hstep : crawlStep sim perm st = st := by simp only [crawlStep, hrem]
    rw [hstep]
    exact ⟨⟨han, hrn, hdisj⟩, hshape⟩
  | (a, is) :: rest =>
    have hmapcons : st.remaining.map Prod.fst = a :: rest.map Prod.fst := by
      rw [hrem, List.map_cons]
    have hanotin : a ∉ st.analyzed := hdisj a (by rw [hmapcons]; simp)
    have hrest := List.nodup_cons.mp (by rw [hmapcons] at hrn; exact hrn)
    have hbase' : BaseInv
        ({ st with remaining := rest, analyzed := st.analyzed ++ [a] } : CrawlState σ) := by
      refine ⟨?_, hrest.2, ?_⟩
      · refine List.Nodup.append han (List.nodup_singleton a) ?_
        intro u hu hmem
        rw [List.mem_singleton] at hmem
        subst hmem
        exact hanotin hu
      · intro t ht hmem
        rcases List.mem_append.mp hmem with h1 | h1
        · exact hdisj t (by rw [hmapcons]; exact List.mem_cons_of_mem _ ht) h1
        · rw [List.mem_singleton] at h1
          subst h1
          exact hrest.1 ht
    match hsim : sim a is with
    | none =>
      have hstep : crawlStep sim perm st =
          { st with remaining := rest, analyzed := st.analyzed ++ [a] } := by
        simp only [crawlStep, hrem, hsim]
      rw [hstep]
      refine ⟨hbase', ?_⟩
      rcases hshape with hcov | hB | hC
      · refine Or.inl ⟨?_, ?_⟩
        · intro t ht
          exact hcov.1 t (by rw [hmapcons]; exact List.mem_cons_of_mem _ ht)
        · intro t ht
          rcases List.mem_append.mp ht with h1 | h1
          · exact hcov.2 t h1
          · rw [List.mem_singleton] at h1
            subst h1
            exact hcov.1 t (by rw [hmapcons]; exact List.mem_cons_self _ _)
      · have hrest0 : rest = [] := by
          have := hB.2.2
          rw [hrem] at this
          simp only [List.length_cons] at this
          exact List.length_eq_zero.mp (by omega)
        exact Or.inr (Or.inr ⟨hB.1, hrest0⟩)
      · rw [hrem] at hC
        cases hC.2
    | some res =>
      have hstep : crawlStep sim perm st = processBlock perm a res
          { st with remaining := rest, analyzed := st.analyzed ++ [a] } := by
        simp only [crawlStep, hrem, hsim]
      rw [hstep]
      have hcov' : (∀ t ∈ rest.map Prod.fst, t ∈ insert a st.sim_blocks) ∧
          (∀ t ∈ st.analyzed ++ [a], t ∈ insert a st.sim_blocks) := by
        rcases hshape with hcov | hB | hC
        · constructor
          · intro t ht
            exact Finset.mem_insert_of_mem
              (hcov.1 t (by rw [hmapcons]; exact List.mem_cons_of_mem _ ht))
          · intro t ht
            rcases List.mem_append.mp ht with h1 | h1
            · exact Finset.mem_insert_of_mem (hcov.2 t h1)
            · rw [List.mem_singleton] at h1
              subst h1
              exact Finset.mem_insert_self t _
        · have hrest0 : rest = [] := by
            have := hB.2.2
            rw [hrem] at this
            simp only [List.length_cons] at this
            exact List.length_eq_zero.mp (by omega)
          constructor
          · intro t ht
            rw [hrest0] at ht
            cases ht
          · intro t ht
            rw [hB.2.1] at ht
            simp only [List.nil_append, List.mem_singleton] at ht
            subst ht
            exact Finset.mem_insert_self t _
        · rw [hrem] at hC
          cases hC.2
      have := processBlock_inv perm a res
        { st with remaining := rest, analyzed := st.analyzed ++ [a] }
        hbase' hcov'.1 hcov'.2
      exact ⟨this.1, Or.inl this.2⟩

theorem crawlLoop_preserves {σ : Type} (sim : Nat → σ → Option (BlockRes σ))
    (perm : Nat → Option Nat) (P : CrawlState σ → Prop)
    (hstep : ∀ st, P st → P (crawlStep sim perm st)) :
    ∀ fuel st, P st → P (crawlLoop sim perm fuel st) := by
  intro fuel
  induction fuel with
  | zero => intro st h; exact h
  | succ n ih =>
    intro st h
    unfold crawlLoop
    match hrem : st.remaining with
    | [] => exact h
    | _ :: _ => exact ih _ (hstep st h)

/-- C4: no address is ever handed to `sim_block` twice during a crawl:
the trace of popped-and-analyzed addresses has no duplicates, for any
lifting oracle, permission view, entry point and fuel. -/
theorem make_refs_no_revisit {σ : Type} (sim : Nat → σ → Option (BlockRes σ))
    (perm : Nat → Option Nat) (entry : Nat) (st0 : σ) (fuel : Nat) :
    (make_refs sim perm entry st0 fuel).analyzed.Nodup := by
  have hinit : CrawlInv (⟨[(entry, st0)], ∅, emptyTables, []⟩ : CrawlState σ) := by
    refine ⟨⟨List.nodup_nil, by simp, by simp⟩, Or.inr (Or.inl ⟨rfl, rfl, by simp⟩)⟩
  have hfin := crawlLoop_preserves sim perm CrawlInv
    (fun st h => crawlStep_inv sim perm st h) fuel _ hinit
  exact hfin.1.1

/-- C9: a failing `sim_block` call (a caught
`SimIRSBError`/`AngrException`) abandons just that address: the
failure handler records nothing in any table, re-queues nothing,
leaves the discovered set alone, and the loop continues draining the
rest of the worklist. -/
theorem crawl_failure_skips {σ : Type} (sim : Nat → σ → Option (BlockRes σ))
    (perm : Nat → Option Nat) (a : Nat) (is : σ) (rest : List (Nat × σ))
    (sb : Finset Nat) (tabs : RefTables) (an : List Nat) (fuel : Nat)
    (hfail : sim a is = none) :
    crawlStep sim perm ⟨(a, is) :: rest, sb, tabs, an⟩
      = (⟨rest, sb, tabs, an ++ [a]⟩ : CrawlState σ) ∧
    crawlLoop sim perm (fuel + 1) ⟨(a, is) :: rest, sb, tabs, an⟩
      = crawlLoop sim perm fuel ⟨rest, sb, tabs, an ++ [a]⟩ := by
  have h1 : crawlStep sim perm (⟨(a, is) :: rest, sb, tabs, an⟩ : CrawlState σ)
      = ⟨rest, sb, tabs, an ++ [a]⟩ := by
    simp only [crawlStep, hfail]
  refine ⟨h1, ?_⟩
  simp only [crawlLoop]
  rw [h1]

/-- An oracle that fails on every address. -/
def simFailW : Nat → Nat → Option (BlockRes Nat) := fun _ _ => none

theorem crawl_failure_skips_witness :
    crawlStep simFailW (fun _ => none) ⟨[(5, 0)], ∅, emptyTables, []⟩
      = (⟨[], ∅, emptyTables, [5]⟩ : CrawlState Nat) :=
  (crawl_failure_skips simFailW (fun _ => none) 5 0 [] ∅ emptyTables [] 0 rfl).1

/-- An oracle whose entry block performs exactly one concrete 4-byte
memory write from instruction 100 to target 200 (size 32 bits). -/
def simWriteW : Nat → Nat → Option (BlockRes Nat) := fun a s =>
  if a = 100 then
    some { reads := [], writes := [⟨some 200, 100, 32⟩], coderefs := [],
           memrefs := [], post := s }
  else none

/-- C3 (code bug): crawling that block leaves `data_writes_from`
empty — the docstring of `make_refs` promises it maps each instruction
to the addresses it writes, but the source appends the
`(instruction, size)` pair into `data_writes_to[target]` instead and
never touches `data_writes_from`; the byte-range reverse entries do
land in `data_writes_to`. -/
theorem data_writes_tables_bug :
    (make_refs simWriteW (fun _ => none) 100 0 2).tabs.data_writes_from 100 = [] ∧
    (make_refs simWriteW (fun _ => none) 100 0 2).tabs.data_writes_to 200
      = [(100, some 4), (100, none)] ∧
    (make_refs simWriteW (fun _ => none) 100 0 2).tabs.data_writes_to 203
      = [(100, none)] ∧
    (make_refs simWriteW (fun _ => none) 100 0 2).tabs.data_writes_to 204 = [] := by
  exact ⟨rfl, rfl, rfl, rfl⟩

end Angr
